import Mathlib

/-!
# Verification of the MaPa math-parser core

Shallow embedding of `src/mapa/expression.py` (the expression-tree classes
`VarExpr`, `UniOpExpr`, `BinOpExpr`, `UniFuncExpr`, `BinFuncExpr`) and of the
grammar/lexer actions of `src/mapa/mapa.py` (`t_NUMBER`, `p_lineseq`,
`p_statement_assign`, `p_expr_binop`, `p_expr_uminus`, `p_expr_uroot`,
`p_expr_bivar`, `p_expr_var`, `p_expr_group`), together with theorems about
the properties the specification states for them.

Numeric model: Python `int` is embedded as `ℤ`, Python `float` as `ℚ`
(decimal-literal conversion and the arithmetic the claims inspect are exact
in this range; IEEE rounding of values the claims never inspect is not
modelled), and Python `complex` as a pair of `ℚ`.  Python exceptions are
embedded as an `Err` enumeration carried in `Except`.
-/

namespace MaPa

/-- Python exceptions raised by the code under `src/`.
`capability` stands for the `NotImplementedError("Assignment not supported"
/ "Complex numbers not supported")` raises, which the specification's error
taxonomy calls `CapabilityError`. -/
inductive Err where
  | syntaxErr
  | nameErr
  | typeErr
  | zeroDivision
  | capability
  | unboundLocal
  deriving DecidableEq, Repr

/-- A Python numeric value: `int`, `float` (exact-rational model) or
`complex` (pair of exact-rational parts). -/
inductive Value where
  | int (n : ℤ)
  | float (q : ℚ)
  | complex (re im : ℚ)
  deriving DecidableEq, Repr

namespace Value

/-- Numeric zero test (`x == 0` in Python, used by division/power). -/
def isZero : Value → Bool
  | .int n => n = 0
  | .float q => q = 0
  | .complex re im => re = 0 && im = 0

/-- The rational content of a non-complex value (the `complex` case is
never reached where this is used; it returns a junk `0` there). -/
def toQ : Value → ℚ
  | .int n => (n : ℚ)
  | .float q => q
  | .complex _ _ => 0

/-- The pair-of-rationals content, promoting `int`/`float` to `complex`. -/
def toC : Value → ℚ × ℚ
  | .int n => ((n : ℚ), 0)
  | .float q => (q, 0)
  | .complex re im => (re, im)

end Value

/-- Complex multiplication on pairs of rationals. -/
def cmul (a b : ℚ × ℚ) : ℚ × ℚ :=
  (a.1 * b.1 - a.2 * b.2, a.1 * b.2 + a.2 * b.1)

/-- Complex division on pairs of rationals (denominator nonzero at the
unique call site, which checks `isZero` first). -/
def cdiv (a b : ℚ × ℚ) : ℚ × ℚ :=
  let d := b.1 * b.1 + b.2 * b.2
  ((a.1 * b.1 + a.2 * b.2) / d, (a.2 * b.1 - a.1 * b.2) / d)

/-- Complex natural power on pairs of rationals. -/
def cpowNat (a : ℚ × ℚ) : Nat → ℚ × ℚ
  | 0 => (1, 0)
  | n + 1 => cmul a (cpowNat a n)

/-- Python `+` on numbers: `int + int` stays `int`, anything involving a
`complex` is `complex`, the remaining mixes are `float`. -/
def pyAdd (a b : Value) : Value :=
  match a, b with
  | .int m, .int n => .int (m + n)
  | .complex x y, b => .complex (x + (Value.toC b).1) (y + (Value.toC b).2)
  | a, .complex u v => .complex ((Value.toC a).1 + u) ((Value.toC a).2 + v)
  | a, b => .float (a.toQ + b.toQ)

/-- Python binary `-` on numbers, with the same promotion as `pyAdd`. -/
def pySub (a b : Value) : Value :=
  match a, b with
  | .int m, .int n => .int (m - n)
  | .complex x y, b => .complex (x - (Value.toC b).1) (y - (Value.toC b).2)
  | a, .complex u v => .complex ((Value.toC a).1 - u) ((Value.toC a).2 - v)
  | a, b => .float (a.toQ - b.toQ)

/-- Python `*` on numbers, with the same promotion as `pyAdd`. -/
def pyMul (a b : Value) : Value :=
  match a, b with
  | .int m, .int n => .int (m * n)
  | .complex x y, b => .complex (cmul (x, y) b.toC).1 (cmul (x, y) b.toC).2
  | a, .complex u v => .complex (cmul a.toC (u, v)).1 (cmul a.toC (u, v)).2
  | a, b => .float (a.toQ * b.toQ)

/-- Python unary `-` on numbers (type preserving). -/
def pyNeg : Value → Value
  | .int n => .int (-n)
  | .float q => .float (-q)
  | .complex re im => .complex (-re) (-im)

/-- Python `/` (true division): raises `ZeroDivisionError` on a zero
divisor; otherwise `int / int` and `int / float` mixes give a `float`, and
anything involving a `complex` gives a `complex`. -/
def pyDiv (a b : Value) : Except Err Value :=
  if b.isZero then .error .zeroDivision
  else
    match a, b with
    | .complex x y, b => .ok (.complex (cdiv (x, y) b.toC).1 (cdiv (x, y) b.toC).2)
    | a, .complex u v => .ok (.complex (cdiv a.toC (u, v)).1 (cdiv a.toC (u, v)).2)
    | a, b => .ok (.float (a.toQ / b.toQ))

/-- The integer content of an exponent, when it has one (`int`, or a
`float` whose value is integral -- Python treats `2.0` as an integral
exponent in the sense that `x ** 2.0` is exact). -/
def intExponent : Value → Option ℤ
  | .int n => some n
  | .float q => if q.den = 1 then some q.num else none
  | .complex _ _ => none

/-- Python `**` with an integral exponent, exact in the rational model:
`int ** nonnegative int` is an `int`, `float` base or exponent gives a
`float`, `complex` base gives a `complex`.  A negative exponent on a zero
base is guarded at the call site. -/
def powToInt (a : Value) (bIsFloat : Bool) (n : ℤ) : Value :=
  match a with
  | .complex x y =>
      if 0 ≤ n then
        .complex (cpowNat (x, y) n.toNat).1 (cpowNat (x, y) n.toNat).2
      else
        .complex (cdiv (1, 0) (cpowNat (x, y) (-n).toNat)).1
          (cdiv (1, 0) (cpowNat (x, y) (-n).toNat)).2
  | .int m =>
      if bIsFloat then .float ((m : ℚ) ^ n)
      else if 0 ≤ n then .int (m ^ n.toNat) else .float ((m : ℚ) ^ n)
  | .float q => .float (q ^ n)

/-- Stand-in for the value of Python `**` with a non-integral exponent
(square roots, etc.): the true result is irrational or complex and lies
outside the exact-rational model.  No claim in this development inspects
such a value; only the error-versus-value behaviour of `**` matters. -/
def powApprox (_a _b : Value) : Value := .float 0

/-- Python `**`: raises `ZeroDivisionError` for a zero base and a negative
exponent, is exact for integral exponents, and is represented by
`powApprox` for non-integral exponents (where no claim inspects the
value). -/
def pyPow (a b : Value) : Except Err Value :=
  match intExponent b with
  | some n =>
      if n < 0 && a.isZero then .error .zeroDivision
      else
        .ok (powToInt a (match b with | .int _ => false | _ => true) n)
  | none =>
      if a.isZero then
        if 0 < (Value.toC b).1 then .ok (.float 0) else .error .zeroDivision
      else .ok (powApprox a b)

/-- The unary operators of `UniOpExpr` (`-`, and `%` meaning square
root). -/
inductive UOp where
  | neg
  | root
  deriving DecidableEq, Repr

/-- The binary operators of `BinOpExpr` (`%` is the n-th root,
`right ** (1/left)`). -/
inductive BOp where
  | add
  | sub
  | mul
  | div
  | pow
  | root
  deriving DecidableEq, Repr

/-- `UniOpExpr.op_priorities`: `- : 3`, `% : 7`. -/
def uopPriority : UOp → Nat
  | .neg => 3
  | .root => 7

/-- `BinOpExpr.op_priorities`: `+ : 0`, `- : 1`, `* : 3`, `/ : 4`,
`^ : 5`, `% : 6`. -/
def bopPriority : BOp → Nat
  | .add => 0
  | .sub => 1
  | .mul => 3
  | .div => 4
  | .pow => 5
  | .root => 6

/-- The operator symbol character stored in `self.op`. -/
def bopChar : BOp → Char
  | .add => '+'
  | .sub => '-'
  | .mul => '*'
  | .div => '/'
  | .pow => '^'
  | .root => '%'

/-- The operator symbol character stored in `self.op`. -/
def uopChar : UOp → Char
  | .neg => '-'
  | .root => '%'

/-- Operator symbol as a string, used by `format`. -/
def bopStr (op : BOp) : String := String.mk [bopChar op]

/-- Operator symbol as a string, used by `format`. -/
def uopStr (op : UOp) : String := String.mk [uopChar op]

/-- Folding a unary operator on a concrete operand
(`UniOpExpr.eval` / `p_expr_uminus` / `p_expr_uroot`): `-` is negation,
`%` is `operand ** 0.5`. -/
def uniFold (op : UOp) (v : Value) : Except Err Value :=
  match op with
  | .neg => .ok (pyNeg v)
  | .root => pyPow v (.float (1 / 2))

/-- Folding a binary operator on two concrete operands
(`BinOpExpr.eval` / `p_expr_binop`): native arithmetic for `+ - * /`,
`**` for `^`, and `operand2 ** (1 / operand1)` for `%`. -/
def binFold (op : BOp) (a b : Value) : Except Err Value :=
  match op with
  | .add => .ok (pyAdd a b)
  | .sub => .ok (pySub a b)
  | .mul => .ok (pyMul a b)
  | .div => pyDiv a b
  | .pow => pyPow a b
  | .root => do
      let r ← pyDiv (.int 1) a
      pyPow b r

/-- A Python callable of one argument, as stored in `UniFuncExpr.func`:
its `str()` rendering (used by `format` with `readable=False`) together
with its behaviour on a numeric argument. -/
structure PyFunc1 where
  str : String
  apply : Value → Except Err Value

/-- A Python callable of two arguments, as stored (oddly -- see
`Expr.eval`) in `BinFuncExpr.func`. -/
structure PyFunc2 where
  str : String
  apply : Value → Value → Except Err Value

mutual
/-- The `Expression` node hierarchy of `expression.py`:
`VarExpr(name)`, `UniOpExpr(op, operand)`, `BinOpExpr(op, o1, o2)`,
`UniFuncExpr(name, func, operand)`, `BinFuncExpr(name, func, o1, o2)`.
Note: `BinFuncExpr.__init__` actually stores `self.func = func,` -- a
1-tuple, due to the trailing comma; the stored slot is never used
successfully because `BinFuncExpr.eval` references the undefined bare
name `func` (see `Expr.eval`). -/
inductive Expr where
  | var (name : String)
  | uniOp (op : UOp) (operand : Operand)
  | binOp (op : BOp) (o1 o2 : Operand)
  | uniFunc (name : String) (func : PyFunc1) (operand : Operand)
  | binFunc (name : String) (func : PyFunc2) (o1 o2 : Operand)

/-- An operand slot: in the Python code each operand is either a concrete
value or an `Expression` instance (distinguished by `isinstance`). -/
inductive Operand where
  | val (v : Value)
  | node (e : Expr)
end

/-- A binding set: the `vars` dictionary passed to `eval`, mapping
variable names to their values. -/
abbrev Bindings := List (String × Value)

mutual
/-- `get_undefined`: the set of undefined (free) variable names, collected
recursively; concrete operands contribute nothing and the dict-union
`v1.update(v2)` is set union. -/
def Expr.getUndefined : Expr → Finset String
  | .var n => {n}
  | .uniOp _ o => o.undef
  | .binOp _ o1 o2 => o1.undef ∪ o2.undef
  | .uniFunc _ _ o => o.undef
  | .binFunc _ _ o1 o2 => o1.undef ∪ o2.undef

/-- Free variables of an operand slot: `{}` for a concrete value,
`get_undefined` for a node (the `isinstance` branches in the source). -/
def Operand.undef : Operand → Finset String
  | .val _ => ∅
  | .node e => e.getUndefined
end

mutual
/-- `Expression.eval(vars)`: partial evaluation against a binding set.
* `VarExpr.eval` is `vars.get(self.name, self)`.
* `UniOpExpr.eval` / `BinOpExpr.eval` evaluate the operands recursively,
  rebuild a fresh node if any evaluated operand is still an `Expression`,
  and otherwise fold the operator on the concrete operands.
* `UniFuncExpr.eval` likewise, applying `self.func`.
* `BinFuncExpr.eval` rebuilds when an operand is still an `Expression`,
  but its concrete branch executes `return func(operand1, operand2)` where
  `func` is an undefined name -- a `NameError` -- modelled as
  `.error .nameErr`. -/
def Expr.eval (vars : Bindings) : Expr → Except Err Operand
  | .var n =>
      match List.lookup n vars with
      | some v => .ok (.val v)
      | none => .ok (.node (.var n))
  | .uniOp op o =>
      match o.evalO vars with
      | .error e => .error e
      | .ok (.node e') => .ok (.node (.uniOp op (.node e')))
      | .ok (.val v) =>
          match uniFold op v with
          | .error e => .error e
          | .ok w => .ok (.val w)
  | .binOp op o1 o2 =>
      match o1.evalO vars with
      | .error e => .error e
      | .ok a1 =>
          match o2.evalO vars with
          | .error e => .error e
          | .ok a2 =>
              match a1, a2 with
              | .val v1, .val v2 =>
                  match binFold op v1 v2 with
                  | .error e => .error e
                  | .ok w => .ok (.val w)
              | a1, a2 => .ok (.node (.binOp op a1 a2))
  | .uniFunc n f o =>
      match o.evalO vars with
      | .error e => .error e
      | .ok (.node e') => .ok (.node (.uniFunc n f (.node e')))
      | .ok (.val v) =>
          match f.apply v with
          | .error e => .error e
          | .ok w => .ok (.val w)
  | .binFunc n f o1 o2 =>
      match o1.evalO vars with
      | .error e => .error e
      | .ok a1 =>
          match o2.evalO vars with
          | .error e => .error e
          | .ok a2 =>
              match a1, a2 with
              | .val _, .val _ => .error .nameErr
              | a1, a2 => .ok (.node (.binFunc n f a1 a2))

/-- Operand evaluation: the
`x.eval(vars) if isinstance(x, Expression) else x` pattern. -/
def Operand.evalO (vars : Bindings) : Operand → Except Err Operand
  | .val v => .ok (.val v)
  | .node e => e.eval vars
end

/-- Python `str()` of a numeric value, used when a concrete operand slot is
formatted.  `int` renders exactly as in Python; the `float` and `complex`
renderings (Python prints the shortest decimal that round-trips the IEEE
double) are approximated by the rational's own rendering, since no claim
inspects the formatted string of a concrete operand. -/
def pyStrOfValue : Value → String
  | .int n => toString n
  | .float q => toString q
  | .complex re im => "(" ++ toString re ++ "+" ++ toString im ++ "j)"

mutual
/-- `format(priority, readable)`: string rendering.
* `VarExpr.format` is the variable name, ignoring both parameters.
* `UniOpExpr.format` / `BinOpExpr.format` render the operands at the
  node's own priority and bracket the result when `readable` is false or
  the parent priority exceeds the node's.
* `UniFuncExpr.format` renders `name(arg)` when readable and
  `str(self.func)(arg)` -- the callable's own string representation --
  when not.
* `BinFuncExpr.format` appends to the never-initialized local `estr2`,
  an `UnboundLocalError`, modelled as `.error .unboundLocal`. -/
def Expr.format (priority : Nat) (readable : Bool) : Expr → Except Err String
  | .var n => .ok n
  | .uniOp op o =>
      match o.formatO (uopPriority op) readable with
      | .error e => .error e
      | .ok estr =>
          if !readable || priority > uopPriority op then
            .ok ("(" ++ uopStr op ++ estr ++ ")")
          else .ok (uopStr op ++ estr)
  | .binOp op o1 o2 =>
      match o1.formatO (bopPriority op) readable with
      | .error e => .error e
      | .ok s1 =>
          match o2.formatO (bopPriority op) readable with
          | .error e => .error e
          | .ok s2 =>
              if !readable || priority > bopPriority op then
                .ok ("(" ++ (s1 ++ bopStr op ++ s2) ++ ")")
              else .ok (s1 ++ bopStr op ++ s2)
  | .uniFunc n f o =>
      match o.formatO 0 readable with
      | .error e => .error e
      | .ok estr =>
          .ok ((if readable then n else f.str) ++ "(" ++ estr ++ ")")
  | .binFunc _ _ _ _ => .error .unboundLocal

/-- Formatting of an operand slot: recursive `format` for a node,
Python `str()` for a concrete value. -/
def Operand.formatO (priority : Nat) (readable : Bool) : Operand → Except Err String
  | .val v => .ok (pyStrOfValue v)
  | .node e => e.format priority readable
end

/-!
## Grammar and lexer actions of `mapa.py`

The PLY grammar actions are embedded as functions on the already-reduced
operands (a reduction's `t[i]` slots): a semantic value of the grammar is
either a concrete number or an `Expression` node, i.e. an `Operand`.
-/

/-- The result of a grammar reduction: a value or an `Expression` node
(`t[0]` of the PLY actions). -/
abbrev Res := Operand

/-- A key of the session's `variables` dict.  Assignments insert string
keys; the stray insertion in `p_statement_assign`'s bare-expression branch
(see `pStatementAssign`) inserts the result itself as the key, so keys can
also be numbers or `Expression` objects. -/
inductive VKey where
  | name (s : String)
  | valKey (v : Value)
  | objKey (e : Expr)

/-- The session's `variables` dict, modelled as an insertion list
(later insertions shadow earlier ones, read through `lookupVarName`). -/
abbrev VarTable := List (VKey × Res)

/-- Dict insertion (`d[k] = v`), modelled as a shadowing cons. -/
def VarTable.insert (k : VKey) (v : Res) (tbl : VarTable) : VarTable :=
  (k, v) :: tbl

/-- `variables.get(name, None)`: lookup of an identifier among the
string-keyed entries (non-string keys can never equal an identifier). -/
def lookupVarName (n : String) : VarTable → Option Res
  | [] => none
  | (.name s, r) :: tbl => if s = n then some r else lookupVarName n tbl
  | _ :: tbl => lookupVarName n tbl

/-- The key under which `p_statement_assign`'s bare-expression branch
stores `t[1]`: the result itself (`mapars.variables[t[1]] = t[1]`). -/
def keyOfRes : Res → VKey
  | .val v => .valKey v
  | .node e => .objKey e

/-- The session state consulted by the grammar actions: the `MaPa`
instance bound to the global `mapars` (`vars` models `self.variables`,
which is a Lean keyword). -/
structure Session where
  isComplex : Bool
  useVars : Bool
  allowUnknown : Bool
  vars : VarTable
  consts : List (String × Value)
  univar : List (String × PyFunc1)
  bivar : List (String × PyFunc2)

/-- A parsed statement, after its sub-expression has been reduced:
`IDENTIFIER ASSIGN expr` or a bare `expr`. -/
inductive Stmt where
  | assign (name : String) (e : Res)
  | bare (e : Res)

/-- `p_statement_assign`: with assignment disabled (`use_vars` false) an
assignment raises `NotImplementedError("Assignment not supported")` (the
spec's CapabilityError) before touching the table; with it enabled the
right-hand result is stored under the identifier and returned.  The
bare-expression branch (`else` of `len(t) == 4`) executes
`mapars.variables[t[1]] = t[1]`, inserting the line's own result into the
variable table keyed by itself.  Returns the statement's result together
with the variable table after the action (unchanged when it raises, since
the raise precedes any mutation). -/
def pStatementAssign (useVars : Bool) (tbl : VarTable) :
    Stmt → Except Err Res × VarTable
  | .assign n e =>
      if useVars then (.ok e, tbl.insert (.name n) e)
      else (.error .capability, tbl)
  | .bare e => (.ok e, tbl.insert (keyOfRes e) e)

/-- `p_expr_binop`: build a `BinOpExpr` if either operand is an
`Expression`, otherwise fold the operator on the concrete values. -/
def pExprBinop (op : BOp) (a1 a2 : Res) : Except Err Res :=
  match a1, a2 with
  | .val v1, .val v2 =>
      match binFold op v1 v2 with
      | .error e => .error e
      | .ok w => .ok (.val w)
  | a1, a2 => .ok (.node (.binOp op a1 a2))

/-- `p_expr_uminus` / `p_expr_uroot`: build a `UniOpExpr` if the operand
is an `Expression`, otherwise fold (`-t[2]` resp. `t[2] ** 0.5`). -/
def pExprUni (op : UOp) (a : Res) : Except Err Res :=
  match a with
  | .val v =>
      match uniFold op v with
      | .error e => .error e
      | .ok w => .ok (.val w)
  | .node e => .ok (.node (.uniOp op (.node e)))

/-- `p_expr_univar`: resolve the name in the univariate-function table
(`NameError` if absent), then build a `UniFuncExpr` on a node argument or
apply the callable to a concrete argument. -/
def pExprUnivar (s : Session) (n : String) (a : Res) : Except Err Res :=
  match List.lookup n s.univar with
  | none => .error .nameErr
  | some f =>
      match a with
      | .node e => .ok (.node (.uniFunc n f (.node e)))
      | .val v =>
          match f.apply v with
          | .error e => .error e
          | .ok w => .ok (.val w)

/-- `p_expr_bivar`: resolve the name in the bivariate-function table
(`NameError` if absent).  When either argument is an `Expression` the
source executes `exp.UniFuncExpr(t[1], func, t[3], t[5])` -- four
positional arguments to the three-parameter `UniFuncExpr.__init__` --
which Python rejects with a `TypeError` before any node is built; when
both arguments are concrete the callable is applied directly. -/
def pExprBivar (s : Session) (n : String) (a1 a2 : Res) : Except Err Res :=
  match List.lookup n s.bivar with
  | none => .error .nameErr
  | some f =>
      match a1, a2 with
      | .val v1, .val v2 =>
          match f.apply v1 v2 with
          | .error e => .error e
          | .ok w => .ok (.val w)
      | _, _ => .error .typeErr

/-- `p_expr_var`: resolution order variables, then constants, then (if
unknown identifiers are allowed) a fresh `VarExpr`, else `NameError`. -/
def pExprVar (s : Session) (n : String) : Except Err Res :=
  match lookupVarName n s.vars with
  | some r => .ok r
  | none =>
      match List.lookup n s.consts with
      | some v => .ok (.val v)
      | none =>
          if s.allowUnknown then .ok (.node (.var n)) else .error .nameErr

/-- `p_lineseq`: `lines : lines NEWLINE line | line` with action
`t[0] = t[3] if t[3] != None else t[1]`, i.e. a left fold over the
sequence of line results that keeps the last non-`None` one.  A `line` is
a statement's result or `None` for the `empty` production. -/
def pLineseq (ls : List (Option Res)) : Option Res :=
  ls.foldl (fun acc l => match l with | none => acc | some r => some r) none

/-!
## The lexer's number rule `t_NUMBER`

A literal matching `(\d+(\.\d*)?|\.\d+)([eE][+-]?\d+)?j?` is modelled
structurally: its integer digits, optional fraction digits, optional
signed exponent, and optional imaginary suffix `j`.
-/

/-- A numeric literal as matched by the `t_NUMBER` regex. -/
structure NumLit where
  intDigits : List Nat
  fracDigits : Option (List Nat)
  expPart : Option ℤ
  imag : Bool
  deriving DecidableEq, Repr

/-- The natural number denoted by a digit list. -/
def digitsToNat (ds : List Nat) : Nat :=
  ds.foldl (fun acc d => 10 * acc + d) 0

/-- The exact rational value of a (non-imaginary reading of a) literal:
integer part, plus fraction digits scaled down, times the power of ten of
the exponent.  Python's `float()` rounds this real value to the nearest
IEEE double; the conversion is exact for the literals the claims
evaluate, so the exact value stands in for the double. -/
def NumLit.value (l : NumLit) : ℚ :=
  let frac : ℚ :=
    match l.fracDigits with
    | none => 0
    | some ds => (digitsToNat ds : ℚ) / ((10 : ℚ) ^ ds.length)
  ((digitsToNat l.intDigits : ℚ) + frac) * (10 : ℚ) ^ (l.expPart.getD 0)

/-- A lexer token produced by `t_NUMBER`: the token type is `INT` exactly
when the code retags it, otherwise it stays `NUMBER`. -/
inductive NumToken where
  | intTok (v : Value)
  | numberTok (v : Value)
  deriving DecidableEq, Repr

/-- `t_NUMBER`: a literal ending in `j` is a complex value in complex
mode and raises `NotImplementedError("Complex numbers not supported")`
(the spec's CapabilityError) in real mode; otherwise the literal is
converted with `float()` and retagged `INT` (with an `int` value) exactly
when `float(...).is_integer()` -- i.e. when the converted value is
integral, regardless of how the literal was written. -/
def tNUMBER (isComplex : Bool) (l : NumLit) : Except Err NumToken :=
  if l.imag then
    if isComplex then .ok (.numberTok (.complex 0 l.value))
    else .error .capability
  else
    let q := l.value
    if q.den = 1 then .ok (.intTok (.int q.num))
    else .ok (.numberTok (.float q))

/-- The characters accepted by some token rule of the lexer
(`t_ASSIGN` .. `t_ROOT`, `t_MUL`, `t_IDENTIFIER`, `t_NUMBER`,
`t_NEWLINE`, `t_ignore`); any other character hits `t_error`, which
raises a `SyntaxError("Illegal character...")`. -/
def lexableChar (c : Char) : Bool :=
  c.isAlpha || c.isDigit || c = '_' || c = '.' ||
  c = '=' || c = '(' || c = ')' || c = ',' ||
  c = '+' || c = '-' || c = '*' || c = '/' || c = '^' || c = '%' ||
  c = ';' || c = '\n' || c = ' ' || c = '\t'

/-!
## Default session tables

The default constants `{pi, e}` carry the exact rational values of the
IEEE doubles `math.pi` and `math.e`.  The default function tables list the
names of `def_real_univar` / `def_real_bivar`; the numeric behaviour of
the transcendental callables is irrational and outside the rational
model, so their `apply` fields are placeholders -- no claim inspects a
math-library function's numeric output, only resolution and the
build-versus-apply control flow. -/
def defaultConstants : List (String × Value) :=
  [("pi", .float (884279719003555 / 281474976710656)),
   ("e", .float (6121026514868073 / 2251799813685248))]

/-- A univariate math-library callable: `str()` rendering from Python,
placeholder behaviour (see `defaultConstants`). -/
def mkUnivar (n : String) : PyFunc1 :=
  ⟨"<built-in function " ++ n ++ ">", fun _ => .ok (.float 0)⟩

/-- A bivariate math-library callable, placeholder behaviour. -/
def mkBivar (n : String) : PyFunc2 :=
  ⟨"<built-in function " ++ n ++ ">", fun _ _ => .ok (.float 0)⟩

/-- The names of `MaPa.def_real_univar`. -/
def defRealUnivar : List (String × PyFunc1) :=
  ["exp", "expm1", "log", "log1p", "log2", "log10", "sqrt", "asin",
   "acos", "atan", "cos", "sin", "tan", "fabs", "floor", "ceil"].map
    (fun n => (n, mkUnivar n))

/-- The names of `MaPa.def_real_bivar`. -/
def defRealBivar : List (String × PyFunc2) :=
  ["pow", "atan2", "log"].map (fun n => (n, mkBivar n))

/-- A default real-mode session (`MaPa()`), with an empty variable
table. -/
def defaultSession : Session :=
  ⟨false, true, true, [], defaultConstants, defRealUnivar, defRealBivar⟩

/-!
## Re-parsing canonical strings

For claim C3 the grammar must be run on the canonical (fully bracketed)
output of `format(..., readable=False)`.  On such strings every binary and
unary operator application is parenthesized, so the LALR machine's
precedence and associativity declarations never arbitrate anything and
the parse tree is uniquely determined by the grammar productions
`p_expr_group`, `p_expr_binop`, `p_expr_uminus`, `p_expr_uroot`,
`p_expr_var`.  The fragment is embedded as a recursive-descent reader
that invokes exactly those productions' actions; lexing is the
character-level content of `t_IDENTIFIER` (maximal munch of
`[a-zA-Z_][a-zA-Z0-9_]*`) and the single-character operator rules.
`p_error` raising `SyntaxError` is `.error .syntaxErr`; the reader is
fuelled, and fuel exhaustion (never reached from adequate fuel) also
reports `.syntaxErr`. -/

/-- A character of `t_IDENTIFIER` after the first (`[a-zA-Z0-9_]`). -/
def identChar (c : Char) : Bool :=
  c.isAlpha || c.isDigit || c = '_'

/-- A first character of `t_IDENTIFIER` (`[a-zA-Z_]`). -/
def identStart (c : Char) : Bool :=
  c.isAlpha || c = '_'

/-- The binary-operator token for a character (`t_ADD` .. `t_ROOT`,
single-character; `**` never occurs in canonical output, which renders
the exponent operator as `^`). -/
def bopOfChar (c : Char) : Option BOp :=
  if c = '+' then some .add
  else if c = '-' then some .sub
  else if c = '*' then some .mul
  else if c = '/' then some .div
  else if c = '^' then some .pow
  else if c = '%' then some .root
  else none

/-- The unary-operator token for a character (`-` or `%` directly after
an opening bracket begins a `UMINUS`/`UROOT` production). -/
def uopOfChar (c : Char) : Option UOp :=
  if c = '-' then some .neg
  else if c = '%' then some .root
  else none

/-- Read one canonical expression: an identifier (production
`p_expr_var`), `(u e)` (productions `p_expr_group` over `p_expr_uminus` /
`p_expr_uroot`), or `(e1 op e2)` (production `p_expr_group` over
`p_expr_binop`).  Returns the production's semantic value and the unread
rest of the input. -/
def parseCanon (s : Session) : Nat → List Char → Except Err (Res × List Char)
  | 0, _ => .error .syntaxErr
  | fuel + 1, cs =>
    match cs with
    | [] => .error .syntaxErr
    | c :: rest =>
      if c = '(' then
        match rest with
        | [] => .error .syntaxErr
        | c2 :: rest' =>
            match uopOfChar c2 with
            | some u =>
                match parseCanon s fuel rest' with
                | .error e => .error e
                | .ok (o, rest2) =>
                    match rest2 with
                    | ')' :: rest3 =>
                        match pExprUni u o with
                        | .error e => .error e
                        | .ok r => .ok (r, rest3)
                    | _ => .error .syntaxErr
            | none =>
                match parseCanon s fuel rest with
                | .error e => .error e
                | .ok (o1, rest2) =>
                    match rest2 with
                    | c3 :: rest3 =>
                        match bopOfChar c3 with
                        | some b =>
                            match parseCanon s fuel rest3 with
                            | .error e => .error e
                            | .ok (o2, rest4) =>
                                match rest4 with
                                | ')' :: rest5 =>
                                    match pExprBinop b o1 o2 with
                                    | .error e => .error e
                                    | .ok r => .ok (r, rest5)
                                | _ => .error .syntaxErr
                        | none => .error .syntaxErr
                    | [] => .error .syntaxErr
      else if identStart c then
        match pExprVar s (String.mk ((c :: rest).takeWhile identChar)) with
        | .error e => .error e
        | .ok r => .ok (r, (c :: rest).dropWhile identChar)
      else .error .syntaxErr

/-- Parse a whole canonical string: the reader must consume the entire
input (a leftover is a `SyntaxError` in the LALR machine as well). -/
def parseCanonical (s : Session) (str : String) : Except Err Res :=
  match parseCanon s (str.toList.length + 1) str.toList with
  | .error e => .error e
  | .ok (r, []) => .ok r
  | .ok (_, _ :: _) => .error .syntaxErr

/-!
## Side conditions used by the theorems -/

mutual
/-- Trees built only from operators over variable leaves: the fragment of
the node hierarchy on which the canonical round-trip can hold (function
nodes render through `str(self.func)`, concrete leaves re-fold). -/
def Expr.opVarOnly : Expr → Bool
  | .var _ => true
  | .uniOp _ o => o.opVarOnlyO
  | .binOp _ o1 o2 => o1.opVarOnlyO && o2.opVarOnlyO
  | .uniFunc _ _ _ => false
  | .binFunc _ _ _ _ => false

/-- Operand-slot version of `Expr.opVarOnly`: the slot must hold a
node. -/
def Operand.opVarOnlyO : Operand → Bool
  | .val _ => false
  | .node e => e.opVarOnly
end

mutual
/-- Nesting depth of an expression, the fuel bound for `parseCanon`. -/
def Expr.depth : Expr → Nat
  | .var _ => 1
  | .uniOp _ o => o.depthO + 1
  | .binOp _ o1 o2 => max o1.depthO o2.depthO + 1
  | .uniFunc _ _ o => o.depthO + 1
  | .binFunc _ _ o1 o2 => max o1.depthO o2.depthO + 1

/-- Operand-slot version of `Expr.depth`. -/
def Operand.depthO : Operand → Nat
  | .val _ => 0
  | .node e => e.depth
end

/-- A string that `t_IDENTIFIER` matches in full:
`[a-zA-Z_][a-zA-Z0-9_]*`. -/
def validIdent (s : String) : Bool :=
  match s.toList with
  | [] => false
  | c :: cs => identStart c && cs.all identChar

/-- The variable names of a tree are lexable identifiers that resolve
neither in the session's variable table nor in its constant table, so
that `p_expr_var` rebuilds each one as a fresh `VarExpr`. -/
def canonNamesOk (s : Session) (E : Expr) : Prop :=
  ∀ n ∈ E.getUndefined,
    validIdent n = true ∧ lookupVarName n s.vars = none ∧
      List.lookup n s.consts = none

/-- Binding-set inclusion `B1 ⊆ B2`: every association of `B1` is found
unchanged by lookup in `B2`. -/
def BindingsSub (B1 B2 : Bindings) : Prop :=
  ∀ k v, List.lookup k B1 = some v → List.lookup k B2 = some v

/-- The unread input does not begin with an identifier character, so
maximal-munch identifier lexing cannot overrun into it. -/
def noIdentHead (rest : List Char) : Prop :=
  ∀ c, rest.head? = some c → identChar c = false

end MaPa

namespace MaPa

/-!
## Theorems: the easy claims -/

/-- Claim C1 (code bug): evaluating a `BinFuncExpr` whose two operands are
already concrete -- a node with zero free variables, so any binding set
covers them -- does not return a concrete value: `BinFuncExpr.eval`'s
concrete branch executes `return func(operand1, operand2)` where `func` is
an undefined name, raising `NameError` (and `__init__` stored the callable
as the 1-tuple `func,`). -/
theorem claim_C1_binFunc_eval_raises_nameError :
    Expr.eval [] (.binFunc "pow" (mkBivar "pow") (.val (.int 2)) (.val (.int 3)))
      = .error .nameErr := rfl

/-- Claim C4 (code bug): with a node argument, `p_expr_bivar` executes
`exp.UniFuncExpr(t[1], func, t[3], t[5])` -- four positional arguments to
the three-parameter `UniFuncExpr.__init__`, a `TypeError` -- instead of
building a `BinFuncExpr`; and evaluating a `BinFuncExpr` on two concrete
operands raises `NameError` instead of applying the stored callable. -/
theorem claim_C4_bivar_application_broken :
    pExprBivar defaultSession "pow" (.node (.var "x")) (.val (.int 2))
      = .error .typeErr ∧
    Expr.eval [] (.binFunc "pow" (mkBivar "pow") (.val (.int 4)) (.val (.int 5)))
      = .error .nameErr :=
  ⟨rfl, rfl⟩

/-- Claim C5 (code bug): the bare-expression branch of
`p_statement_assign` executes `mapars.variables[t[1]] = t[1]`, so parsing
the bare line `5` against an empty variable table leaves the table holding
the entry `5 ↦ 5` (keyed by the value itself) -- not the unchanged empty
table the claim states. -/
theorem claim_C5_bare_expression_mutates_table :
    pStatementAssign true [] (.bare (.val (.int 5)))
      = (.ok (.val (.int 5)), [(.valKey (.int 5), .val (.int 5))]) ∧
    ([(VKey.valKey (.int 5), Operand.val (.int 5))] : VarTable) ≠ [] :=
  ⟨rfl, by simp⟩

/-- Claim C6, counterexample: folding `/` on the concrete operands the
lexer produces for `1` and `0` (both tagged `INT`) raises
`ZeroDivisionError`; it does not return a floating infinity, `Python`
float division by zero being an error, not an IEEE-infinity result. -/
theorem claim_C6_counterexample_one_div_zero_raises :
    tNUMBER false ⟨[1], none, none, false⟩ = .ok (.intTok (.int 1)) ∧
    tNUMBER false ⟨[0], none, none, false⟩ = .ok (.intTok (.int 0)) ∧
    pExprBinop .div (.val (.int 1)) (.val (.int 0)) = .error .zeroDivision := by
  refine ⟨?_, ?_, rfl⟩ <;>
    · simp only [tNUMBER, NumLit.value, digitsToNat]
      norm_num

/-- Claim C6, amended: folding the binary `/` on two concrete operands
raises `ZeroDivisionError` exactly when the divisor is zero (and returns a
value otherwise); in particular `1/0` raises rather than returning
infinity. -/
theorem claim_C6_div_fold_raises_iff_zero_divisor (a b : Value) :
    pExprBinop .div (.val a) (.val b) = .error .zeroDivision ↔ b.isZero = true := by
  cases hz : b.isZero with
  | true => simp [pExprBinop, binFold, pyDiv, hz]
  | false => cases a <;> cases b <;> simp_all [pExprBinop, binFold, pyDiv]

/-- Claim C6, witness: the amended statement evaluated at `5.0 / 0.0`. -/
theorem claim_C6_witness :
    Value.isZero (.float 0) = true ∧
    pExprBinop .div (.val (.float 5)) (.val (.float 0)) = .error .zeroDivision :=
  ⟨rfl, (claim_C6_div_fold_raises_iff_zero_divisor (.float 5) (.float 0)).mpr rfl⟩

/-- Claim C7: with assignment disabled, the assignment production raises
the capability error (`NotImplementedError("Assignment not supported")`),
which is not the parser's `SyntaxError`, and the raise precedes any
mutation, so the variable table is returned unchanged. -/
theorem claim_C7_assignment_disabled (n : String) (e : Res) (tbl : VarTable) :
    pStatementAssign false tbl (.assign n e) = (.error .capability, tbl) ∧
    Err.capability ≠ Err.syntaxErr :=
  ⟨rfl, by decide⟩

/-- Claim C8: readable formatting brackets `a - (b + c)` as `a-(b+c)` and
leaves `(a - b) + c` as `a-b+c`, and the `-` priority strictly exceeds the
`+` priority, as `BinOpExpr.op_priorities` records. -/
theorem claim_C8_bracket_minimality :
    Expr.format 0 true
        (.binOp .sub (.node (.var "a"))
          (.node (.binOp .add (.node (.var "b")) (.node (.var "c")))))
      = .ok "a-(b+c)" ∧
    Expr.format 0 true
        (.binOp .add
          (.node (.binOp .sub (.node (.var "a")) (.node (.var "b"))))
          (.node (.var "c")))
      = .ok "a-b+c" ∧
    bopPriority .add < bopPriority .sub :=
  ⟨rfl, rfl, by decide⟩

/-- Claim C9, counterexample: the literal `2.0` is written with a
fractional part, yet `t_NUMBER` converts it with `float()`, finds
`(2.0).is_integer()` true, and retags it `INT` with the integer value `2`
-- refuting "integer-kind only if written with no fractional part". -/
theorem claim_C9_counterexample_two_point_zero_is_int :
    (⟨[2], some [0], none, false⟩ : NumLit).fracDigits = some [0] ∧
    tNUMBER false ⟨[2], some [0], none, false⟩ = .ok (.intTok (.int 2)) := by
  refine ⟨rfl, ?_⟩
  simp only [tNUMBER, NumLit.value, digitsToNat]
  norm_num

/-- Claim C9, amended: a non-imaginary literal is tagged integer-kind
(with integer value) exactly when its converted floating value is
integral -- irrespective of how the literal is written -- and is tagged
float-kind with the converted value otherwise; the tag only selects the
token's type and value. -/
theorem claim_C9_int_tag_iff_integral_value (l : NumLit) (h : l.imag = false) :
    (l.value.den = 1 → tNUMBER false l = .ok (.intTok (.int l.value.num))) ∧
    (l.value.den ≠ 1 → tNUMBER false l = .ok (.numberTok (.float l.value))) := by
  constructor <;> intro hd <;> simp [tNUMBER, h, hd]

/-- Claim C9, witness: the amended statement evaluated at the literal
`1.5`, whose value `3/2` is not integral, giving a float-kind token. -/
theorem claim_C9_witness :
    tNUMBER false ⟨[1], some [5], none, false⟩
      = .ok (.numberTok (.float ((3 : ℚ) / 2))) := by
  have h := (claim_C9_int_tag_iff_integral_value ⟨[1], some [5], none, false⟩ rfl).2
  have hv : (⟨[1], some [5], none, false⟩ : NumLit).value = (3 : ℚ) / 2 := by
    simp only [NumLit.value, digitsToNat]
    norm_num
  rw [h (by rw [hv]; norm_num), hv]

/-- Claim C10: the `lines` fold keeps the last non-`None` line result, so
a parse returns the last non-empty line's result and `None` when every
line is empty (an empty or separators-only input). -/
theorem claim_C10_last_nonempty_line (ls : List (Option Res)) :
    pLineseq ls = (ls.filterMap id).getLast? := by
  induction ls using List.reverseRecOn with
  | nil => rfl
  | append_singleton ms l ih =>
      cases l with
      | none => simpa [pLineseq, List.foldl_append, List.filterMap_append]
          using ih
      | some r => simp [pLineseq, List.foldl_append, List.filterMap_append]

end MaPa

namespace MaPa

/-!
## Monotone simplification (claim C2)

Three mutual lemma pairs over the tree/operand recursion: evaluation
results only mention variables of the original tree; a result that is
concrete under `B1` is the same concrete value under any `B2 ⊇ B1`; and
the free variables of the result shrink as the binding set grows. -/

mutual

/-- Free variables of an operand's evaluation result are among the
operand's own. -/
theorem undef_evalO_le (B : Bindings) :
    ∀ (o r : Operand), o.evalO B = .ok r → r.undef ⊆ o.undef
  | .val v, r => fun h => by
      simp only [Operand.evalO] at h
      cases h
      exact Finset.Subset.refl _
  | .node e, r => fun h => undef_eval_le B e r h

/-- Free variables of an evaluation result are among the tree's own
(`free_variables(evaluate(E,B)) ⊆ free_variables(E)`). -/
theorem undef_eval_le (B : Bindings) :
    ∀ (e : Expr) (r : Operand), e.eval B = .ok r → r.undef ⊆ e.getUndefined
  | .var n, r => fun h => by
      simp only [Expr.eval] at h
      cases hl : List.lookup n B <;> rw [hl] at h <;> cases h <;>
        simp [Operand.undef, Expr.getUndefined]
  | .uniOp op o, r => fun h => by
      simp only [Expr.eval] at h
      cases ho : o.evalO B with
      | error e => rw [ho] at h; cases h
      | ok a =>
          rw [ho] at h
          cases a with
          | node e1 =>
              cases h
              have := undef_evalO_le B o _ ho
              simp only [Operand.undef, Expr.getUndefined] at this ⊢
              exact this
          | val v =>
              dsimp only at h
              cases hf : uniFold op v with
              | error e => rw [hf] at h; cases h
              | ok w =>
                  rw [hf] at h
                  cases h
                  simp [Operand.undef]
  | .binOp op o1 o2, r => fun h => by
      simp only [Expr.eval] at h
      cases h1 : o1.evalO B with
      | error e => rw [h1] at h; cases h
      | ok a1 =>
        rw [h1] at h
        cases h2 : o2.evalO B with
        | error e => rw [h2] at h; cases h
        | ok a2 =>
          rw [h2] at h
          have s1 := undef_evalO_le B o1 a1 h1
          have s2 := undef_evalO_le B o2 a2 h2
          cases a1 with
          | val v1 =>
              cases a2 with
              | val v2 =>
                  dsimp only at h
                  cases hf : binFold op v1 v2 with
                  | error e => rw [hf] at h; cases h
                  | ok w =>
                      rw [hf] at h
                      cases h
                      simp [Operand.undef]
              | node e2 =>
                  cases h
                  simp only [Operand.undef, Expr.getUndefined] at s1 s2 ⊢
                  exact Finset.union_subset_union s1 s2
          | node e1 =>
              cases a2 <;> cases h <;>
                simp only [Operand.undef, Expr.getUndefined] at s1 s2 ⊢ <;>
                exact Finset.union_subset_union s1 s2
  | .uniFunc n f o, r => fun h => by
      simp only [Expr.eval] at h
      cases ho : o.evalO B with
      | error e => rw [ho] at h; cases h
      | ok a =>
          rw [ho] at h
          cases a with
          | node e1 =>
              cases h
              have := undef_evalO_le B o _ ho
              simp only [Operand.undef, Expr.getUndefined] at this ⊢
              exact this
          | val v =>
              dsimp only at h
              cases hf : f.apply v with
              | error e => rw [hf] at h; cases h
              | ok w =>
                  rw [hf] at h
                  cases h
                  simp [Operand.undef]
  | .binFunc n f o1 o2, r => fun h => by
      simp only [Expr.eval] at h
      cases h1 : o1.evalO B with
      | error e => rw [h1] at h; cases h
      | ok a1 =>
        rw [h1] at h
        cases h2 : o2.evalO B with
        | error e => rw [h2] at h; cases h
        | ok a2 =>
          rw [h2] at h
          have s1 := undef_evalO_le B o1 a1 h1
          have s2 := undef_evalO_le B o2 a2 h2
          cases a1 with
          | val v1 =>
              cases a2 with
              | val v2 => cases h
              | node e2 =>
                  cases h
                  simp only [Operand.undef, Expr.getUndefined] at s1 s2 ⊢
                  exact Finset.union_subset_union s1 s2
          | node e1 =>
              cases a2 <;> cases h <;>
                simp only [Operand.undef, Expr.getUndefined] at s1 s2 ⊢ <;>
                exact Finset.union_subset_union s1 s2

end

mutual

/-- An operand that evaluates to a concrete value keeps that value under
any larger binding set. -/
theorem evalO_val_stable (B1 B2 : Bindings) (hs : BindingsSub B1 B2) :
    ∀ (o : Operand) (v : Value), o.evalO B1 = .ok (.val v) →
      o.evalO B2 = .ok (.val v)
  | .val _, _ => fun h => h
  | .node e, v => fun h => eval_val_stable B1 B2 hs e v h

/-- A tree that evaluates to a concrete value keeps that value under any
larger binding set. -/
theorem eval_val_stable (B1 B2 : Bindings) (hs : BindingsSub B1 B2) :
    ∀ (e : Expr) (v : Value), e.eval B1 = .ok (.val v) →
      e.eval B2 = .ok (.val v)
  | .var n, v => fun h => by
      simp only [Expr.eval] at h ⊢
      cases hl : List.lookup n B1 with
      | some w =>
          rw [hl] at h
          cases h
          simp [hs n v hl]
      | none => rw [hl] at h; simp at h
  | .uniOp op o, v => fun h => by
      simp only [Expr.eval] at h ⊢
      cases ho : o.evalO B1 with
      | error e => rw [ho] at h; cases h
      | ok a =>
          rw [ho] at h
          cases a with
          | node e1 => simp at h
          | val w =>
              rw [evalO_val_stable B1 B2 hs o w ho]
              exact h
  | .binOp op o1 o2, v => fun h => by
      simp only [Expr.eval] at h ⊢
      cases h1 : o1.evalO B1 with
      | error e => rw [h1] at h; cases h
      | ok a1 =>
        rw [h1] at h
        cases h2 : o2.evalO B1 with
        | error e => rw [h2] at h; cases h
        | ok a2 =>
          rw [h2] at h
          cases a1 with
          | node e1 => cases a2 <;> simp at h
          | val w1 =>
              cases a2 with
              | node e2 => simp at h
              | val w2 =>
                  rw [evalO_val_stable B1 B2 hs o1 w1 h1,
                    evalO_val_stable B1 B2 hs o2 w2 h2]
                  exact h
  | .uniFunc n f o, v => fun h => by
      simp only [Expr.eval] at h ⊢
      cases ho : o.evalO B1 with
      | error e => rw [ho] at h; cases h
      | ok a =>
          rw [ho] at h
          cases a with
          | node e1 => simp at h
          | val w =>
              rw [evalO_val_stable B1 B2 hs o w ho]
              exact h
  | .binFunc n f o1 o2, v => fun h => by
      simp only [Expr.eval] at h
      cases h1 : o1.evalO B1 with
      | error e => rw [h1] at h; cases h
      | ok a1 =>
        rw [h1] at h
        cases h2 : o2.evalO B1 with
        | error e => rw [h2] at h; cases h
        | ok a2 =>
          rw [h2] at h
          cases a1 <;> cases a2 <;> simp at h

end

mutual

/-- Free variables of an operand's evaluation result shrink as the
binding set grows. -/
theorem evalO_undef_mono (B1 B2 : Bindings) (hs : BindingsSub B1 B2) :
    ∀ (o r1 r2 : Operand), o.evalO B1 = .ok r1 → o.evalO B2 = .ok r2 →
      r2.undef ⊆ r1.undef
  | .val w, r1, r2 => fun h1 h2 => by
      simp only [Operand.evalO] at h1 h2
      cases h1
      cases h2
      exact Finset.Subset.refl _
  | .node e, r1, r2 => fun h1 h2 => eval_undef_mono B1 B2 hs e r1 r2 h1 h2

/-- Free variables of a tree's evaluation result shrink as the binding
set grows (`free_variables(evaluate(E,B2)) ⊆ free_variables(evaluate(E,B1))`
for `B1 ⊆ B2`). -/
theorem eval_undef_mono (B1 B2 : Bindings) (hs : BindingsSub B1 B2) :
    ∀ (e : Expr) (r1 r2 : Operand), e.eval B1 = .ok r1 → e.eval B2 = .ok r2 →
      r2.undef ⊆ r1.undef
  | .var n, r1, r2 => fun h1 h2 => by
      simp only [Expr.eval] at h1 h2
      cases hl1 : List.lookup n B1 with
      | some w =>
          rw [hl1] at h1
          cases h1
          rw [hs n w hl1] at h2
          cases h2
          exact Finset.Subset.refl _
      | none =>
          rw [hl1] at h1
          cases h1
          cases hl2 : List.lookup n B2 with
          | some w =>
              rw [hl2] at h2
              cases h2
              simp [Operand.undef]
          | none =>
              rw [hl2] at h2
              cases h2
              exact Finset.Subset.refl _
  | .uniOp op o, r1, r2 => fun h1 h2 => by
      simp only [Expr.eval] at h1 h2
      cases ho1 : o.evalO B1 with
      | error e => rw [ho1] at h1; cases h1
      | ok a1 =>
        rw [ho1] at h1
        cases ho2 : o.evalO B2 with
        | error e => rw [ho2] at h2; cases h2
        | ok a2 =>
          rw [ho2] at h2
          have ih := evalO_undef_mono B1 B2 hs o a1 a2 ho1 ho2
          cases a1 with
          | val w1 =>
              have hst := evalO_val_stable B1 B2 hs o w1 ho1
              rw [hst] at ho2
              cases ho2
              dsimp only at h1 h2
              cases hf : uniFold op w1 with
              | error e => rw [hf] at h1; cases h1
              | ok w =>
                  rw [hf] at h1 h2
                  cases h1
                  cases h2
                  exact Finset.Subset.refl _
          | node e1 =>
              cases h1
              cases a2 with
              | val w2 =>
                  dsimp only at h2
                  cases hf : uniFold op w2 with
                  | error e => rw [hf] at h2; cases h2
                  | ok w =>
                      rw [hf] at h2
                      cases h2
                      simp [Operand.undef]
              | node e2 =>
                  cases h2
                  simp only [Operand.undef, Expr.getUndefined] at ih ⊢
                  exact ih
  | .binOp op o1 o2, r1, r2 => fun h1 h2 => by
      simp only [Expr.eval] at h1 h2
      cases ha1 : o1.evalO B1 with
      | error e => rw [ha1] at h1; cases h1
      | ok a1 =>
        rw [ha1] at h1
        cases ha2 : o2.evalO B1 with
        | error e => rw [ha2] at h1; cases h1
        | ok a2 =>
          rw [ha2] at h1
          cases hb1 : o1.evalO B2 with
          | error e => rw [hb1] at h2; cases h2
          | ok b1 =>
            rw [hb1] at h2
            cases hb2 : o2.evalO B2 with
            | error e => rw [hb2] at h2; cases h2
            | ok b2 =>
              rw [hb2] at h2
              have ih1 := evalO_undef_mono B1 B2 hs o1 a1 b1 ha1 hb1
              have ih2 := evalO_undef_mono B1 B2 hs o2 a2 b2 ha2 hb2
              cases a1 with
              | val w1 =>
                cases a2 with
                | val w2 =>
                    have hs1 := evalO_val_stable B1 B2 hs o1 w1 ha1
                    have hs2 := evalO_val_stable B1 B2 hs o2 w2 ha2
                    rw [hs1] at hb1
                    cases hb1
                    rw [hs2] at hb2
                    cases hb2
                    dsimp only at h1 h2
                    cases hf : binFold op w1 w2 with
                    | error e => rw [hf] at h1; cases h1
                    | ok w =>
                        rw [hf] at h1 h2
                        cases h1
                        cases h2
                        exact Finset.Subset.refl _
                | node e2 =>
                    cases h1
                    cases b1 with
                    | val u1 =>
                        cases b2 with
                        | val u2 =>
                            dsimp only at h2
                            cases hf : binFold op u1 u2 with
                            | error e => rw [hf] at h2; cases h2
                            | ok w =>
                                rw [hf] at h2
                                cases h2
                                simp [Operand.undef]
                        | node f2 =>
                            cases h2
                            simp only [Operand.undef, Expr.getUndefined]
                              at ih1 ih2 ⊢
                            exact Finset.union_subset_union ih1 ih2
                    | node f1 =>
                        cases b2 <;> cases h2 <;>
                          simp only [Operand.undef, Expr.getUndefined]
                            at ih1 ih2 ⊢ <;>
                          exact Finset.union_subset_union ih1 ih2
              | node e1 =>
                cases a2 <;> cases h1
                all_goals
                  cases b1 with
                  | val u1 =>
                      cases b2 with
                      | val u2 =>
                          dsimp only at h2
                          cases hf : binFold op u1 u2 with
                          | error e => rw [hf] at h2; cases h2
                          | ok w =>
                              rw [hf] at h2
                              cases h2
                              simp [Operand.undef]
                      | node f2 =>
                          cases h2
                          simp only [Operand.undef, Expr.getUndefined]
                            at ih1 ih2 ⊢
                          exact Finset.union_subset_union ih1 ih2
                  | node f1 =>
                      cases b2 <;> cases h2 <;>
                        simp only [Operand.undef, Expr.getUndefined]
                          at ih1 ih2 ⊢ <;>
                        exact Finset.union_subset_union ih1 ih2
  | .uniFunc n f o, r1, r2 => fun h1 h2 => by
      simp only [Expr.eval] at h1 h2
      cases ho1 : o.evalO B1 with
      | error e => rw [ho1] at h1; cases h1
      | ok a1 =>
        rw [ho1] at h1
        cases ho2 : o.evalO B2 with
        | error e => rw [ho2] at h2; cases h2
        | ok a2 =>
          rw [ho2] at h2
          have ih := evalO_undef_mono B1 B2 hs o a1 a2 ho1 ho2
          cases a1 with
          | val w1 =>
              have hst := evalO_val_stable B1 B2 hs o w1 ho1
              rw [hst] at ho2
              cases ho2
              dsimp only at h1 h2
              cases hf : f.apply w1 with
              | error e => rw [hf] at h1; cases h1
              | ok w =>
                  rw [hf] at h1 h2
                  cases h1
                  cases h2
                  exact Finset.Subset.refl _
          | node e1 =>
              cases h1
              cases a2 with
              | val w2 =>
                  dsimp only at h2
                  cases hf : f.apply w2 with
                  | error e => rw [hf] at h2; cases h2
                  | ok w =>
                      rw [hf] at h2
                      cases h2
                      simp [Operand.undef]
              | node e2 =>
                  cases h2
                  simp only [Operand.undef, Expr.getUndefined] at ih ⊢
                  exact ih
  | .binFunc n f o1 o2, r1, r2 => fun h1 h2 => by
      simp only [Expr.eval] at h1 h2
      cases ha1 : o1.evalO B1 with
      | error e => rw [ha1] at h1; cases h1
      | ok a1 =>
        rw [ha1] at h1
        cases ha2 : o2.evalO B1 with
        | error e => rw [ha2] at h1; cases h1
        | ok a2 =>
          rw [ha2] at h1
          cases hb1 : o1.evalO B2 with
          | error e => rw [hb1] at h2; cases h2
          | ok b1 =>
            rw [hb1] at h2
            cases hb2 : o2.evalO B2 with
            | error e => rw [hb2] at h2; cases h2
            | ok b2 =>
              rw [hb2] at h2
              have ih1 := evalO_undef_mono B1 B2 hs o1 a1 b1 ha1 hb1
              have ih2 := evalO_undef_mono B1 B2 hs o2 a2 b2 ha2 hb2
              cases a1 with
              | val w1 =>
                cases a2 with
                | val w2 => cases h1
                | node e2 =>
                    cases h1
                    cases b1 with
                    | val u1 =>
                        cases b2 with
                        | val u2 => cases h2
                        | node f2 =>
                            cases h2
                            simp only [Operand.undef, Expr.getUndefined]
                              at ih1 ih2 ⊢
                            exact Finset.union_subset_union ih1 ih2
                    | node f1 =>
                        cases b2 <;> cases h2 <;>
                          simp only [Operand.undef, Expr.getUndefined]
                            at ih1 ih2 ⊢ <;>
                          exact Finset.union_subset_union ih1 ih2
              | node e1 =>
                cases a2 <;> cases h1
                all_goals
                  cases b1 with
                  | val u1 =>
                      cases b2 with
                      | val u2 => cases h2
                      | node f2 =>
                          cases h2
                          simp only [Operand.undef, Expr.getUndefined]
                            at ih1 ih2 ⊢
                          exact Finset.union_subset_union ih1 ih2
                  | node f1 =>
                      cases b2 <;> cases h2 <;>
                        simp only [Operand.undef, Expr.getUndefined]
                          at ih1 ih2 ⊢ <;>
                        exact Finset.union_subset_union ih1 ih2

end

end MaPa

namespace MaPa

/-- Claim C2: monotone simplification.  For binding sets `B1 ⊆ B2` and
evaluations of a tree `E` that return (rather than raise), the free
variables of `evaluate(E, B2)` are among those of `evaluate(E, B1)`,
which are among those of `E` itself. -/
theorem claim_C2_monotone_simplification (E : Expr) (B1 B2 : Bindings)
    (hsub : BindingsSub B1 B2) (r1 r2 : Operand)
    (h1 : E.eval B1 = .ok r1) (h2 : E.eval B2 = .ok r2) :
    r2.undef ⊆ r1.undef ∧ r1.undef ⊆ E.getUndefined :=
  ⟨eval_undef_mono B1 B2 hsub E r1 r2 h1 h2, undef_eval_le B1 E r1 h1⟩

/-- Claim C2, witness: `E = x * y`, `B1 = {}`, `B2 = {x: 1}`: the
evaluation under `B2` substitutes `x`, and the free-variable chain
`{y} ⊆ {x, y} ⊆ {x, y}` is the theorem's conclusion at this input. -/
theorem claim_C2_witness :
    Operand.undef (.node (.binOp .mul (.val (.int 1)) (.node (.var "y"))))
        ⊆ Operand.undef
            (.node (.binOp .mul (.node (.var "x")) (.node (.var "y")))) ∧
    Operand.undef (.node (.binOp .mul (.node (.var "x")) (.node (.var "y"))))
        ⊆ Expr.getUndefined
            (.binOp .mul (.node (.var "x")) (.node (.var "y"))) :=
  claim_C2_monotone_simplification
    (.binOp .mul (.node (.var "x")) (.node (.var "y")))
    [] [("x", .int 1)]
    (fun _ _ h => Option.noConfusion h)
    (.node (.binOp .mul (.node (.var "x")) (.node (.var "y"))))
    (.node (.binOp .mul (.val (.int 1)) (.node (.var "y"))))
    rfl rfl

end MaPa

namespace MaPa

/-!
## Canonical round-trip (claim C3): helper lemmas -/

/-- `toList` distributes over string append. -/
theorem string_toList_append (a b : String) :
    (a ++ b).toList = a.toList ++ b.toList :=
  String.data_append a b

/-- Rebuilding a string from its characters is the identity. -/
theorem string_mk_toList (s : String) : String.mk s.toList = s := rfl

/-- A leading identifier character is an identifier character. -/
theorem identChar_of_identStart {c : Char} (h : identStart c = true) :
    identChar c = true := by
  simp only [identStart, Bool.or_eq_true] at h
  rcases h with h | h <;> simp [identChar, h]

/-- An identifier cannot begin with `(`. -/
theorem identStart_ne_lparen {c : Char} (h : identStart c = true) : c ≠ '(' := by
  intro hc
  subst hc
  exact absurd h (by decide)

/-- An identifier-start character is not a unary-operator character. -/
theorem uopOfChar_of_identStart {c : Char} (h : identStart c = true) :
    uopOfChar c = none := by
  by_cases h1 : c = '-'
  · subst h1; exact absurd h (by decide)
  by_cases h2 : c = '%'
  · subst h2; exact absurd h (by decide)
  simp [uopOfChar, h1, h2]

/-- Operator symbols are not identifier characters. -/
theorem identChar_bopChar (op : BOp) : identChar (bopChar op) = false := by
  cases op <;> decide

/-- Reading back the symbol of a binary operator. -/
theorem bopOfChar_bopChar (op : BOp) : bopOfChar (bopChar op) = some op := by
  cases op <;> decide

/-- Reading back the symbol of a unary operator. -/
theorem uopOfChar_uopChar (op : UOp) : uopOfChar (uopChar op) = some op := by
  cases op <;> decide

/-- Maximal munch over a block of satisfying characters stops exactly at
a non-satisfying continuation. -/
theorem takeWhile_append_split (p : Char → Bool) :
    ∀ (xs ys : List Char), (∀ c ∈ xs, p c = true) →
      (∀ c, ys.head? = some c → p c = false) →
      (xs ++ ys).takeWhile p = xs ∧ (xs ++ ys).dropWhile p = ys := by
  intro xs
  induction xs with
  | nil =>
      intro ys _ hy
      cases ys with
      | nil => exact ⟨rfl, rfl⟩
      | cons c ys' => simp [List.takeWhile, List.dropWhile, hy c rfl]
  | cons c xs' ih =>
      intro ys hx hy
      have hc : p c = true := hx c (List.mem_cons_self _ _)
      have h2 := ih ys (fun d hd => hx d (List.mem_cons_of_mem _ hd)) hy
      simp [List.takeWhile_cons, List.dropWhile_cons, hc, h2.1, h2.2]

end MaPa

namespace MaPa

/-- Names of the left operand are among the names of a binary node. -/
theorem getUndefined_binOp_left (op : BOp) (E1 E2 : Expr) :
    E1.getUndefined ⊆ (Expr.binOp op (.node E1) (.node E2)).getUndefined := by
  simp only [Expr.getUndefined, Operand.undef]
  exact Finset.subset_union_left

/-- Names of the right operand are among the names of a binary node. -/
theorem getUndefined_binOp_right (op : BOp) (E1 E2 : Expr) :
    E2.getUndefined ⊆ (Expr.binOp op (.node E1) (.node E2)).getUndefined := by
  simp only [Expr.getUndefined, Operand.undef]
  exact Finset.subset_union_right

/-- The first character of a canonical rendering: an opening bracket for
operator nodes, an identifier-start character for variables; never a
unary-operator character. -/
theorem canonHead :
    ∀ (E : Expr), E.opVarOnly = true →
      (∀ n ∈ E.getUndefined, validIdent n = true) →
      ∀ (p : Nat) (str : String), E.format p false = .ok str →
      ∃ c t, str.toList = c :: t ∧ uopOfChar c = none
  | .var n => by
      intro _ hv p str hF
      simp only [Expr.format] at hF
      cases hF
      have h := hv n (by simp [Expr.getUndefined])
      unfold validIdent at h
      cases hl : n.toList with
      | nil => rw [hl] at h; cases h
      | cons c cs =>
          rw [hl] at h
          simp only [Bool.and_eq_true] at h
          exact ⟨c, cs, rfl, uopOfChar_of_identStart h.1⟩
  | .uniOp op o => by
      intro _ _ p str hF
      simp only [Expr.format] at hF
      cases ho : Operand.formatO (uopPriority op) false o with
      | error e => rw [ho] at hF; cases hF
      | ok estr =>
          rw [ho] at hF
          dsimp only at hF
          rw [if_pos (by simp)] at hF
          cases hF
          exact ⟨'(', uopChar op :: (estr.toList ++ [')']), rfl, by decide⟩
  | .binOp op o1 o2 => by
      intro _ _ p str hF
      simp only [Expr.format] at hF
      cases h1 : Operand.formatO (bopPriority op) false o1 with
      | error e => rw [h1] at hF; cases hF
      | ok s1 =>
          rw [h1] at hF
          dsimp only at hF
          cases h2 : Operand.formatO (bopPriority op) false o2 with
          | error e => rw [h2] at hF; cases hF
          | ok s2 =>
              rw [h2] at hF
              dsimp only at hF
              rw [if_pos (by simp)] at hF
              cases hF
              exact ⟨'(', ((s1.toList ++ [bopChar op]) ++ s2.toList) ++ [')'],
                rfl, by decide⟩
  | .uniFunc n f o => by intro hOp; cases hOp
  | .binFunc n f o1 o2 => by intro hOp; cases hOp

end MaPa

namespace MaPa

/-- A canonical rendering is at least as long as the tree is deep, so the
input length suffices as parser fuel. -/
theorem depth_le_format_length :
    ∀ (E : Expr), E.opVarOnly = true →
      (∀ n ∈ E.getUndefined, validIdent n = true) →
      ∀ (p : Nat) (str : String), E.format p false = .ok str →
      E.depth ≤ str.toList.length
  | .var n => by
      intro _ hv p str hF
      simp only [Expr.format] at hF
      cases hF
      have h := hv n (by simp [Expr.getUndefined])
      unfold validIdent at h
      cases hl : n.toList with
      | nil => rw [hl] at h; cases h
      | cons c cs => simp [Expr.depth]
  | .uniOp op o => by
      intro hOp hv p str hF
      cases o with
      | val v => simp [Expr.opVarOnly, Operand.opVarOnlyO] at hOp
      | node E1 =>
          replace hOp : E1.opVarOnly = true := by
            simpa [Expr.opVarOnly, Operand.opVarOnlyO] using hOp
          simp only [Expr.format, Operand.formatO] at hF
          cases ho : Expr.format (uopPriority op) false E1 with
          | error e => rw [ho] at hF; cases hF
          | ok estr =>
              rw [ho] at hF
              dsimp only at hF
              rw [if_pos (by simp)] at hF
              cases hF
              have ih := depth_le_format_length E1 hOp
                (fun n hn => hv n hn) _ _ ho
              have hlen : (("(" ++ uopStr op ++ estr ++ ")")).toList
                  = '(' :: uopChar op :: (estr.toList ++ [')']) := rfl
              rw [hlen]
              simp only [Expr.depth, Operand.depthO, List.length_cons,
                List.length_append, List.length_singleton]
              omega
  | .binOp op o1 o2 => by
      intro hOp hv p str hF
      cases o1 with
      | val v => simp [Expr.opVarOnly, Operand.opVarOnlyO] at hOp
      | node E1 =>
        cases o2 with
        | val v => simp [Expr.opVarOnly, Operand.opVarOnlyO] at hOp
        | node E2 =>
          simp only [Expr.opVarOnly, Operand.opVarOnlyO, Bool.and_eq_true] at hOp
          simp only [Expr.format, Operand.formatO] at hF
          cases h1 : Expr.format (bopPriority op) false E1 with
          | error e => rw [h1] at hF; cases hF
          | ok s1 =>
            rw [h1] at hF
            dsimp only at hF
            cases h2 : Expr.format (bopPriority op) false E2 with
            | error e => rw [h2] at hF; cases hF
            | ok s2 =>
              rw [h2] at hF
              dsimp only at hF
              rw [if_pos (by simp)] at hF
              cases hF
              have ih1 := depth_le_format_length E1 hOp.1
                (fun n hn => hv n (getUndefined_binOp_left op E1 E2 hn)) _ _ h1
              have ih2 := depth_le_format_length E2 hOp.2
                (fun n hn => hv n (getUndefined_binOp_right op E1 E2 hn)) _ _ h2
              have hlen : (("(" ++ (s1 ++ bopStr op ++ s2) ++ ")")).toList
                  = '(' :: (((s1.toList ++ [bopChar op]) ++ s2.toList) ++ [')']) :=
                rfl
              rw [hlen]
              simp only [Expr.depth, Operand.depthO, List.length_cons,
                List.length_append, List.length_singleton]
              omega
  | .uniFunc n f o => by intro hOp; cases hOp
  | .binFunc n f o1 o2 => by intro hOp; cases hOp

/-- One parser step on `( u ...`: a bracketed unary application. -/
theorem parseCanon_step_uop (s : Session) (f : Nat) (op : UOp)
    (tail : List Char) :
    parseCanon s (f + 1) ('(' :: uopChar op :: tail)
      = (match parseCanon s f tail with
         | .error e => .error e
         | .ok (o, rest2) =>
             match rest2 with
             | ')' :: rest3 =>
                 (match pExprUni op o with
                  | .error e => .error e
                  | .ok r => .ok (r, rest3))
             | _ => .error .syntaxErr) := by
  simp only [parseCanon]
  rw [if_pos trivial]
  rw [uopOfChar_uopChar]

/-- One parser step on `( c ...` where `c` begins an operand: a bracketed
binary application. -/
theorem parseCanon_step_binop (s : Session) (f : Nat) (c1 : Char)
    (h1 : uopOfChar c1 = none) (tail : List Char) :
    parseCanon s (f + 1) ('(' :: c1 :: tail)
      = (match parseCanon s f (c1 :: tail) with
         | .error e => .error e
         | .ok (o1, rest2) =>
             match rest2 with
             | c3 :: rest3 =>
                 (match bopOfChar c3 with
                  | some b =>
                      (match parseCanon s f rest3 with
                       | .error e => .error e
                       | .ok (o2, rest4) =>
                           match rest4 with
                           | ')' :: rest5 =>
                               (match pExprBinop b o1 o2 with
                                | .error e => .error e
                                | .ok r => .ok (r, rest5))
                           | _ => .error .syntaxErr)
                  | none => .error .syntaxErr)
             | [] => .error .syntaxErr) := by
  simp only [parseCanon]
  rw [if_pos trivial]
  rw [h1]

/-- One parser step on an identifier-start character: maximal munch and
`p_expr_var`. -/
theorem parseCanon_step_ident (s : Session) (f : Nat) (c : Char)
    (hc : identStart c = true) (tail : List Char) :
    parseCanon s (f + 1) (c :: tail)
      = (match pExprVar s (String.mk ((c :: tail).takeWhile identChar)) with
         | .error e => .error e
         | .ok r => .ok (r, (c :: tail).dropWhile identChar)) := by
  simp only [parseCanon]
  rw [if_neg (identStart_ne_lparen hc), if_pos hc]

end MaPa

namespace MaPa

/-- Re-parsing a canonical rendering: on operator-over-variable trees with
fresh, lexable names, running the grammar productions on the
`readable=False` output reconstructs exactly the original tree (with the
unread input handed back unchanged). -/
theorem parseCanon_roundtrip (s : Session) (hA : s.allowUnknown = true) :
    ∀ (E : Expr), E.opVarOnly = true → canonNamesOk s E →
      ∀ (p : Nat) (str : String), E.format p false = .ok str →
      ∀ (fuel : Nat), E.depth ≤ fuel →
      ∀ (rest : List Char), noIdentHead rest →
      parseCanon s fuel (str.toList ++ rest) = .ok (.node E, rest)
  | .var n => by
      intro _ hN p str hF fuel hfuel rest hRest
      simp only [Expr.format] at hF
      cases hF
      obtain ⟨hvi, hlv, hlc⟩ := hN n (by simp [Expr.getUndefined])
      cases fuel with
      | zero => simp [Expr.depth] at hfuel
      | succ f =>
          unfold validIdent at hvi
          cases hl : n.toList with
          | nil => rw [hl] at hvi; cases hvi
          | cons c cs =>
              rw [hl] at hvi
              simp only [Bool.and_eq_true] at hvi
              obtain ⟨hc1, hcs⟩ := hvi
              have hsplit := takeWhile_append_split identChar (c :: cs) rest
                (by intro d hd
                    rcases List.mem_cons.mp hd with h | h
                    · subst h; exact identChar_of_identStart hc1
                    · exact List.all_eq_true.mp hcs d h)
                hRest
              simp only [List.cons_append] at hsplit
              simp only [List.cons_append]
              rw [parseCanon_step_ident s f c hc1 (cs ++ rest)]
              rw [hsplit.1, hsplit.2]
              have hmk : String.mk (c :: cs) = n := by
                rw [← hl, string_mk_toList]
              rw [hmk]
              simp [pExprVar, hlv, hlc, hA]
  | .uniOp op o => by
      intro hOp hN p str hF fuel hfuel rest hRest
      cases o with
      | val v => simp [Expr.opVarOnly, Operand.opVarOnlyO] at hOp
      | node E1 =>
          replace hOp : E1.opVarOnly = true := by
            simpa [Expr.opVarOnly, Operand.opVarOnlyO] using hOp
          simp only [Expr.format, Operand.formatO] at hF
          cases ho : Expr.format (uopPriority op) false E1 with
          | error e => rw [ho] at hF; cases hF
          | ok estr =>
              rw [ho] at hF
              dsimp only at hF
              rw [if_pos (by simp)] at hF
              cases hF
              cases fuel with
              | zero => simp only [Expr.depth] at hfuel; omega
              | succ f =>
                  have hd1 : E1.depth ≤ f := by
                    simp only [Expr.depth, Operand.depthO] at hfuel; omega
                  have hN1 : canonNamesOk s E1 := fun n hn => hN n hn
                  have ih := parseCanon_roundtrip s hA E1 hOp hN1
                    (uopPriority op) estr ho f hd1 (')' :: rest)
                    (fun d hd => by cases hd; decide)
                  have hshape : (("(" ++ uopStr op ++ estr ++ ")")).toList ++ rest
                      = '(' :: uopChar op :: (estr.toList ++ (')' :: rest)) := by
                    show ('(' :: uopChar op :: (estr.toList ++ [')'])) ++ rest = _
                    simp [List.append_assoc]
                  rw [hshape, parseCanon_step_uop s f op
                    (estr.toList ++ (')' :: rest)), ih]
                  rfl
  | .binOp op o1 o2 => by
      intro hOp hN p str hF fuel hfuel rest hRest
      cases o1 with
      | val v => simp [Expr.opVarOnly, Operand.opVarOnlyO] at hOp
      | node E1 =>
        cases o2 with
        | val v => simp [Expr.opVarOnly, Operand.opVarOnlyO] at hOp
        | node E2 =>
          simp only [Expr.opVarOnly, Operand.opVarOnlyO, Bool.and_eq_true] at hOp
          simp only [Expr.format, Operand.formatO] at hF
          cases h1 : Expr.format (bopPriority op) false E1 with
          | error e => rw [h1] at hF; cases hF
          | ok s1 =>
            rw [h1] at hF
            dsimp only at hF
            cases h2 : Expr.format (bopPriority op) false E2 with
            | error e => rw [h2] at hF; cases hF
            | ok s2 =>
              rw [h2] at hF
              dsimp only at hF
              rw [if_pos (by simp)] at hF
              cases hF
              cases fuel with
              | zero => simp only [Expr.depth] at hfuel; omega
              | succ f =>
                  have hd1 : E1.depth ≤ f := by
                    simp only [Expr.depth, Operand.depthO] at hfuel; omega
                  have hd2 : E2.depth ≤ f := by
                    simp only [Expr.depth, Operand.depthO] at hfuel; omega
                  have hN1 : canonNamesOk s E1 := fun n hn =>
                    hN n (getUndefined_binOp_left op E1 E2 hn)
                  have hN2 : canonNamesOk s E2 := fun n hn =>
                    hN n (getUndefined_binOp_right op E1 E2 hn)
                  obtain ⟨c1, t1, hc1, huop⟩ := canonHead E1 hOp.1
                    (fun n hn => (hN1 n hn).1) (bopPriority op) s1 h1
                  have ih1 := parseCanon_roundtrip s hA E1 hOp.1 hN1
                    (bopPriority op) s1 h1 f hd1
                    (bopChar op :: (s2.toList ++ (')' :: rest)))
                    (fun d hd => by cases hd; exact identChar_bopChar op)
                  have ih2 := parseCanon_roundtrip s hA E2 hOp.2 hN2
                    (bopPriority op) s2 h2 f hd2 (')' :: rest)
                    (fun d hd => by cases hd; decide)
                  have hshape :
                      (("(" ++ (s1 ++ bopStr op ++ s2) ++ ")")).toList ++ rest
                      = '(' :: (s1.toList ++
                          (bopChar op :: (s2.toList ++ (')' :: rest)))) := by
                    show ('(' :: (((s1.toList ++ [bopChar op]) ++ s2.toList)
                      ++ [')'])) ++ rest = _
                    simp [List.append_assoc]
                  rw [hshape, hc1]
                  simp only [List.cons_append]
                  rw [parseCanon_step_binop s f c1 huop
                    (t1 ++ (bopChar op :: (s2.toList ++ (')' :: rest))))]
                  rw [hc1] at ih1
                  simp only [List.cons_append] at ih1
                  rw [ih1]
                  dsimp only
                  rw [bopOfChar_bopChar]
                  dsimp only
                  rw [ih2]
                  rfl
  | .uniFunc n f o => by intro hOp; cases hOp
  | .binFunc n f o1 o2 => by intro hOp; cases hOp

end MaPa

namespace MaPa

/-- Claim C3, amended: for trees built from operators over variable
leaves whose names are lexable identifiers unresolved in the session
(unknown variables allowed), the canonical (`readable=False`) rendering
is the fully bracketed operator-symbol string and parsing it
reconstructs exactly the original tree. -/
theorem claim_C3_canonical_roundtrip (s : Session) (hA : s.allowUnknown = true)
    (E : Expr) (hOp : E.opVarOnly = true) (hN : canonNamesOk s E)
    (str : String) (hF : E.format 0 false = .ok str) :
    parseCanonical s str = .ok (.node E) := by
  unfold parseCanonical
  have hd := depth_le_format_length E hOp (fun n hn => (hN n hn).1) 0 str hF
  have h := parseCanon_roundtrip s hA E hOp hN 0 str hF
    (str.toList.length + 1) (by omega) [] (fun d hd => Option.noConfusion hd)
  rw [List.append_nil] at h
  rw [h]

/-- Claim C3, counterexample: the canonical rendering of the
function-call node `cos(x)` is `str(self.func)` applied to the argument
-- the internal callable identifier `<built-in function cos>(x)`, not the
display name `cos(x)` -- and it contains the character `<`, which no
lexer rule accepts, so the canonical string cannot be re-parsed; also, a
concrete subtree such as `(1+2)` re-folds to the value `3` on parsing
instead of rebuilding a tree. -/
theorem claim_C3_counterexample_canonical_not_roundtrippable :
    Expr.format 0 false (.uniFunc "cos" (mkUnivar "cos") (.node (.var "x")))
      = .ok "<built-in function cos>(x)" ∧
    Expr.format 0 true (.uniFunc "cos" (mkUnivar "cos") (.node (.var "x")))
      = .ok "cos(x)" ∧
    "<built-in function cos>(x)".toList.contains '<' = true ∧
    lexableChar '<' = false ∧
    pExprBinop .add (.val (.int 1)) (.val (.int 2)) = .ok (.val (.int 3)) :=
  ⟨rfl, rfl, by decide, by decide, rfl⟩

/-- Claim C3, witness: the round-trip theorem evaluated on the tree
`a - (b + c)` in a default real-mode session: its canonical form is
`(a-(b+c))` and parsing that string rebuilds the tree. -/
theorem claim_C3_witness :
    Expr.format 0 false
        (.binOp .sub (.node (.var "a"))
          (.node (.binOp .add (.node (.var "b")) (.node (.var "c")))))
      = .ok "(a-(b+c))" ∧
    parseCanonical defaultSession "(a-(b+c))"
      = .ok (.node (.binOp .sub (.node (.var "a"))
          (.node (.binOp .add (.node (.var "b")) (.node (.var "c")))))) :=
  ⟨rfl,
    claim_C3_canonical_roundtrip defaultSession rfl
      (.binOp .sub (.node (.var "a"))
        (.node (.binOp .add (.node (.var "b")) (.node (.var "c")))))
      (by decide)
      (by
        intro n hn
        simp only [Expr.getUndefined, Operand.undef, Finset.mem_union,
          Finset.mem_singleton] at hn
        rcases hn with rfl | rfl | rfl <;> exact ⟨by decide, rfl, rfl⟩)
      "(a-(b+c))" rfl⟩

end MaPa
